import Mathlib

/-!
Verification of the composite-pattern password generator (`src/main.cpp`).

The program builds passwords from character-class policies.  Objects live
behind `std::shared_ptr<password_generator>`, so the object graph is modelled
as a heap: a list of objects indexed by position (the id plays the role of
the pointer).  Methods that recurse through child pointers (`length`,
`generate` of `composite_password_generator`) are modelled with an explicit
fuel argument: `none` means the computation has not finished within the given
fuel, so "the call terminates" is "some fuel returns `some`".

Randomness: every call of `random_string` creates a freshly seeded
`std::mt19937` and samples it through `uniform_int_distribution`.  We model
the whole supply of raw draws as one arbitrary stream `s : Nat → Nat`
together with a running position; each sampled value is `s pos % alphabetSize`.
Quantifying theorems over every stream `s` covers every possible sequence of
draws.

`size_t` arithmetic is modelled on `Nat` with explicit wraparound modulo
`2 ^ 64` where the C++ can underflow (`len - 1` in `random_string`, the
implicit conversion of `-1` at a `size_t` parameter).
-/

deriving instance DecidableEq for Except

namespace PasswordGen

/-- Width of `size_t` on the modelled platform: values live in `[0, 2^64)`. -/
def SIZE_T_MOD : Nat := 2 ^ 64

/-- The distinct failure outcomes of the program, one constructor per C++
throw site, plus `ub` marking points where the C++ has undefined behaviour
(indexing an empty string / an empty distribution range / a dangling id). -/
inductive PwdError where
  /-- `password_generator::generate`: `runtime_error("can't generate")`. -/
  | cantGenerate
  /-- `password_generator::allowed_chars`: `runtime_error("can't get allowed_chars")`. -/
  | cantGetAllowedChars
  /-- `password_generator::length`: `runtime_error("can't return length")`. -/
  | cantReturnLength
  /-- `composite_password_generator::generate`: `out_of_range("too short password")`. -/
  | tooShortPassword
  /-- `password_default_length::set_length`: `out_of_range("invalid length value")`. -/
  | invalidLengthValue
  /-- Undefined behaviour in the C++ source (no exception is thrown there). -/
  | ub
  deriving Repr, DecidableEq

/-- The number of loop iterations of `random_string`: the C++ loop bound is
`len - 1` on `size_t`, which wraps around to `2^64 - 1` when `len = 0`. -/
def rsCount (len : Nat) : Nat := if len = 0 then SIZE_T_MOD - 1 else len - 1

/-- `random_string(len, chars)` from `src/main.cpp`.

The C++ draws one character before the loop and then `rsCount len` more in
the loop, so it returns exactly `len` characters for `len ≥ 1` and `2^64`
characters for `len = 0`.  An empty `chars` makes both the distribution
range and the indexing undefined (`none`).  Draw number `i` picks
`chars[s (pos + i) % chars.length]`; the result is paired with the next
unused stream position. -/
def random_string (s : Nat → Nat) (pos : Nat) (len : Nat) (chars : List Char) :
    Option (List Char × Nat) :=
  if chars.length = 0 then
    none
  else
    some ((List.range (rsCount len + 1)).map
      (fun i => chars.getD (s (pos + i) % chars.length) 'a'), pos + rsCount len + 1)

/-- One heap object: a bare `password_generator` base instance, a
`basic_password_generator` leaf (its subclass only fixes `chars`), or a
`composite_password_generator` holding the ids of its registered children. -/
inductive HObj where
  | basePG
  | leaf (chars : List Char) (len : Nat)
  | composite (children : List Nat)
  deriving Repr, DecidableEq

/-- The object graph: position in the list is the object's id (pointer). -/
def Heap := List HObj

/-- The `find_max` loop of `composite_password_generator::length`: fold the
children left to right, propagating the first failure, otherwise keeping
`if (p->length() > len) len = p->length()`. -/
def maxFold (f : Nat → Option (Except PwdError Nat)) :
    Nat → List Nat → Option (Except PwdError Nat)
  | acc, [] => some (.ok acc)
  | acc, c :: cs =>
    match f c with
    | none => none
    | some (.error e) => some (.error e)
    | some (.ok l) => maxFold f (if acc < l then l else acc) cs

/-- `password_generator::length` resolved through the heap, with fuel
bounding the recursion depth through composite children.  `none` = the call
has not returned within `fuel` nested calls. -/
def lengthFuelH (h : List HObj) : Nat → Nat → Option (Except PwdError Nat)
  | 0, _ => none
  | fuel + 1, i =>
    match h.get? i with
    | none => some (.error .ub)
    | some .basePG => some (.error .cantReturnLength)
    | some (.leaf _ l) => some (.ok l)
    | some (.composite cs) => maxFold (lengthFuelH h fuel) 0 cs

/-- The first loop of `composite_password_generator::generate`: run each
child's `generate()` in registration order, collecting the fragments and
threading the stream position; the first failure propagates. -/
def fragsFold (gen : Nat → Nat → Option (Except PwdError (List Char × Nat))) :
    Nat → List Nat → Option (Except PwdError (List (List Char) × Nat))
  | pos, [] => some (.ok ([], pos))
  | pos, c :: cs =>
    match gen pos c with
    | none => none
    | some (.error e) => some (.error e)
    | some (.ok (f, pos')) =>
      match fragsFold gen pos' cs with
      | none => none
      | some (.error e) => some (.error e)
      | some (.ok (fs, pos'')) => some (.ok (f :: fs, pos''))

/-- The last loop of `composite_password_generator::generate`:
`password.append(random_string(1, str))` for each fragment in order.
Each `random_string(1, str)` contributes exactly one character of `str`. -/
def appendGuards (s : Nat → Nat) : Nat → List (List Char) → Option (List Char × Nat)
  | pos, [] => some ([], pos)
  | pos, f :: fs =>
    match random_string s pos 1 f with
    | none => none
    | some (c, pos') =>
      match appendGuards s pos' fs with
      | none => none
      | some (rest, pos'') => some (c ++ rest, pos'')

/-- `password_generator::generate` resolved through the heap.  A leaf runs
`random_string(len, allowed_chars())`; a composite first computes
`pas_len = length()`, then the children's fragments, throws
`tooShortPassword` when `pas_len <= generated_strings.size()`, and otherwise
returns `random_string(pas_len - k, concat) ++ one sampled char per fragment`.
Fuel bounds the recursion depth through composite children. -/
def generateFuelH (s : Nat → Nat) (h : List HObj) :
    Nat → Nat → Nat → Option (Except PwdError (List Char × Nat))
  | 0, _, _ => none
  | fuel + 1, pos, i =>
    match h.get? i with
    | none => some (.error .ub)
    | some .basePG => some (.error .cantGenerate)
    | some (.leaf chars len) =>
      match random_string s pos len chars with
      | none => some (.error .ub)
      | some r => some (.ok r)
    | some (.composite cs) =>
      match lengthFuelH h (fuel + 1) i with
      | none => none
      | some (.error e) => some (.error e)
      | some (.ok pasLen) =>
        match fragsFold (fun q c => generateFuelH s h fuel q c) pos cs with
        | none => none
        | some (.error e) => some (.error e)
        | some (.ok (frags, pos1)) =>
          if pasLen ≤ frags.length then some (.error .tooShortPassword)
          else
            match random_string s pos1 (pasLen - frags.length) frags.flatten with
            | none => some (.error .ub)
            | some (filler, pos2) =>
              match appendGuards s pos2 frags with
              | none => some (.error .ub)
              | some (guards, pos3) => some (.ok (filler ++ guards, pos3))

/-- Initial value of `password_default_length::len`. -/
def password_default_length_initial : Nat := 10

/-- `password_default_length::set_length`, as a transition on the stored
value: the parameter is a `size_t`, so the guard `new_l <= 0` only catches
`new_l = 0`.  Returns the new stored value and the raised error, if any. -/
def set_length (cur : Nat) (new_l : Nat) : Nat × Option PwdError :=
  if new_l ≤ 0 then (cur, some .invalidLengthValue) else (new_l, none)

/-- Conversion of a C++ `int` argument to the `size_t` parameter of
`set_length` (modular, well defined in C++). -/
def int_to_size_t (i : Int) : Nat := (i % (SIZE_T_MOD : Int)).toNat

/-- Alphabet of `digit_generator`. -/
def digit_chars : List Char := "0123456789".toList

/-- Alphabet of `symbol_generator`. -/
def symbol_chars : List Char := "-/.;#@%)*".toList

/-- Alphabet of `upper_letter_generator`. -/
def upper_letter_chars : List Char := "ABCDEFGHKLMNIOPRST".toList

/-- Alphabet of `lower_letter_generator`. -/
def lower_letter_chars : List Char := "abcdefghklmnioprst".toList

/-- `digit_generator` built without an explicit length, when the current
process-wide default is `d`: the default argument is
`password_default_length::length()`. -/
def mk_digit_generator (d : Nat) : HObj := .leaf digit_chars d

/-- `symbol_generator` built without an explicit length: the default
argument is the literal `12`, the process-wide default `d` is ignored. -/
def mk_symbol_generator (_d : Nat) : HObj := .leaf symbol_chars 12

/-- `upper_letter_generator` built without an explicit length, when the
current process-wide default is `d`. -/
def mk_upper_letter_generator (d : Nat) : HObj := .leaf upper_letter_chars d

/-- `lower_letter_generator` built without an explicit length: the default
argument is the literal `12`, the process-wide default `d` is ignored. -/
def mk_lower_letter_generator (_d : Nat) : HObj := .leaf lower_letter_chars 12

/-- The heap built by registering a composite as its own child
(`c->add(c)`, reachable through the public interface). -/
def cycHeap : List HObj := [.composite [0]]

/-- Termination of a `generate()` call on object `i`: some fuel suffices,
whatever the random draws. -/
def GenTerminatesH (h : List HObj) (i : Nat) : Prop :=
  ∀ s pos, ∃ fuel r, generateFuelH s h fuel pos i = some r

/-- The object graph of the reference scenario in `main`, with all four
children given explicit length 16 (the spec's `[16,16,16,16]` test). -/
def witHeap1 : List HObj := [.leaf digit_chars 16, .leaf symbol_chars 16,
  .leaf upper_letter_chars 16, .leaf lower_letter_chars 16, .composite [0, 1, 2, 3]]

/-- A composite holding a nested empty composite and a digit child: the
outer target length is 5 > 2 children, yet generation fails. -/
def nestedHeap : List HObj := [.composite [], .leaf digit_chars 5, .composite [0, 1]]

/-- A composite with one digit child of length 1 (`k = 1`, `totalLen = 1`). -/
def singleHeap : List HObj := [.leaf digit_chars 1, .composite [0]]

/-- A composite with one digit child of length 3. -/
def smallHeap : List HObj := [.leaf digit_chars 3, .composite [0]]

/-- A composite whose registered child is a bare `password_generator` base
instance (reachable: `add` accepts any `shared_ptr<password_generator>`). -/
def baseChildHeap : List HObj := [.basePG, .composite [0]]

/-- A composite with two leaf children of lengths 3 and 5. -/
def twoLeafHeap : List HObj :=
  [.leaf digit_chars 3, .leaf symbol_chars 5, .composite [0, 1]]

/-! ### Lemmas about `random_string` -/

theorem getD_mem_of_lt {l : List Char} {n : Nat} (h : n < l.length) (d : Char) :
    l.getD n d ∈ l := by
  rw [List.getD_eq_getElem l d h]
  exact List.getElem_mem h

theorem rsCount_of_pos {len : Nat} (h : 1 ≤ len) : rsCount len + 1 = len := by
  have : len ≠ 0 := Nat.pos_iff_ne_zero.mp h
  simp only [rsCount, if_neg this]
  omega

theorem random_string_eq (s : Nat → Nat) (pos len : Nat) {chars : List Char}
    (h : chars ≠ []) :
    random_string s pos len chars =
      some ((List.range (rsCount len + 1)).map
        (fun i => chars.getD (s (pos + i) % chars.length) 'a'),
        pos + rsCount len + 1) := by
  rw [random_string, if_neg (by simpa using h)]

theorem random_string_ok (s : Nat → Nat) (pos len : Nat) {chars : List Char}
    (h : chars ≠ []) :
    ∃ r, random_string s pos len chars = some (r, pos + rsCount len + 1) ∧
      r.length = rsCount len + 1 ∧ ∀ c ∈ r, c ∈ chars := by
  refine ⟨_, random_string_eq s pos len h, by simp, ?_⟩
  intro c hc
  rw [List.mem_map] at hc
  obtain ⟨i, -, rfl⟩ := hc
  exact getD_mem_of_lt
    (Nat.mod_lt _ (List.length_pos.mpr h)) _

/-- For `len ≥ 1` the C++ returns exactly `len` characters of `chars`. -/
theorem random_string_ok_pos (s : Nat → Nat) (pos : Nat) {len : Nat}
    {chars : List Char} (hlen : 1 ≤ len) (h : chars ≠ []) :
    ∃ r, random_string s pos len chars = some (r, pos + len) ∧
      r.length = len ∧ ∀ c ∈ r, c ∈ chars := by
  obtain ⟨r, hr, hn, hm⟩ := random_string_ok s pos len h
  rw [Nat.add_assoc, rsCount_of_pos hlen] at hr
  rw [rsCount_of_pos hlen] at hn
  exact ⟨r, hr, hn, hm⟩

/-- Whatever `random_string` returns is made of characters of `chars`. -/
theorem random_string_mem (s : Nat → Nat) (pos len : Nat) {chars r : List Char}
    {pos' : Nat} (hr : random_string s pos len chars = some (r, pos')) :
    ∀ c ∈ r, c ∈ chars := by
  by_cases h : chars = []
  · rw [h, random_string] at hr
    simp at hr
  · rw [random_string_eq s pos len h] at hr
    obtain ⟨rfl, -⟩ := Prod.mk.injEq .. ▸ Option.some.inj hr
    intro c hc
    rw [List.mem_map] at hc
    obtain ⟨i, -, rfl⟩ := hc
    exact getD_mem_of_lt (Nat.mod_lt _ (List.length_pos.mpr h)) _

/-! ### Lemmas about `maxFold` (the `find_max` loop of `length`) -/

theorem if_lt_eq_max (a l : Nat) : (if a < l then l else a) = max a l := by
  rcases Nat.lt_or_ge a l with hl | hl
  · simp [hl, Nat.max_eq_right (Nat.le_of_lt hl)]
  · simp [Nat.not_lt.mpr hl, Nat.max_eq_left hl]

theorem maxFold_isSome {f : Nat → Option (Except PwdError Nat)} :
    ∀ {cs : List Nat}, (∀ c ∈ cs, (f c).isSome) →
      ∀ acc, (maxFold f acc cs).isSome := by
  intro cs
  induction cs with
  | nil => intro _ acc; simp [maxFold]
  | cons c cs ih =>
    intro hall acc
    have hc := hall c (by simp)
    cases hfc : f c with
    | none => rw [hfc] at hc; simp at hc
    | some v =>
      cases v with
      | error e => simp [maxFold, hfc]
      | ok l =>
        simpa [maxFold, hfc] using
          ih (fun x hx => hall x (List.mem_cons_of_mem _ hx)) (if acc < l then l else acc)

/-- When every child's `length()` succeeds, the loop returns the running
maximum of the children's values. -/
theorem maxFold_ok {f : Nat → Option (Except PwdError Nat)} {cs ls : List Nat}
    (h : List.Forall₂ (fun c l => f c = some (.ok l)) cs ls) :
    ∀ acc, maxFold f acc cs = some (.ok (ls.foldl max acc)) := by
  induction h with
  | nil => intro acc; simp [maxFold]
  | cons hcl _ ih =>
    intro acc
    simp only [maxFold, hcl, if_lt_eq_max, List.foldl_cons]
    exact ih _

/-! ### Lemmas about `fragsFold` (the fragment-collection loop) -/

/-- If every child generates successfully (with a property `P` of its
fragment) from any stream position, the loop succeeds and the fragments are
pointwise related to the children. -/
theorem fragsFold_ok {gen : Nat → Nat → Option (Except PwdError (List Char × Nat))}
    {P : Nat → List Char → Prop} :
    ∀ {cs : List Nat},
      (∀ c ∈ cs, ∀ q, ∃ fc q', gen q c = some (.ok (fc, q')) ∧ P c fc) →
      ∀ pos, ∃ frags pos', fragsFold gen pos cs = some (.ok (frags, pos')) ∧
        List.Forall₂ P cs frags := by
  intro cs
  induction cs with
  | nil => intro _ pos; exact ⟨[], pos, by simp [fragsFold], List.Forall₂.nil⟩
  | cons c cs ih =>
    intro hall pos
    obtain ⟨fc, q', hgen, hP⟩ := hall c (by simp) pos
    obtain ⟨frags, pos', hrec, hF⟩ :=
      ih (fun x hx q => hall x (List.mem_cons_of_mem _ hx) q) q'
    exact ⟨fc :: frags, pos', by simp [fragsFold, hgen, hrec],
      List.Forall₂.cons hP hF⟩

/-- If every child call returns within the fuel, so does the loop. -/
theorem fragsFold_isSome {gen : Nat → Nat → Option (Except PwdError (List Char × Nat))} :
    ∀ {cs : List Nat}, (∀ c ∈ cs, ∀ q, (gen q c).isSome) →
      ∀ pos, (fragsFold gen pos cs).isSome := by
  intro cs
  induction cs with
  | nil => intro _ pos; simp [fragsFold]
  | cons c cs ih =>
    intro hall pos
    have hc := hall c (by simp) pos
    cases hgen : gen pos c with
    | none => rw [hgen] at hc; simp at hc
    | some v =>
      cases v with
      | error e => simp [fragsFold, hgen]
      | ok r =>
        obtain ⟨fc, q'⟩ := r
        have hrec := ih (fun x hx q => hall x (List.mem_cons_of_mem _ hx) q) q'
        cases hr : fragsFold gen q' cs with
        | none => rw [hr] at hrec; simp at hrec
        | some w =>
          cases w with
          | error e => simp [fragsFold, hgen, hr]
          | ok r' => obtain ⟨fs, q''⟩ := r'; simp [fragsFold, hgen, hr]

/-- Conversely, a successful run of the loop pins each fragment to a
successful `generate()` call of the corresponding child. -/
theorem fragsFold_inv {gen : Nat → Nat → Option (Except PwdError (List Char × Nat))} :
    ∀ {cs : List Nat} {pos frags pos'},
      fragsFold gen pos cs = some (.ok (frags, pos')) →
      List.Forall₂ (fun c fc => ∃ q q', gen q c = some (.ok (fc, q'))) cs frags := by
  intro cs
  induction cs with
  | nil =>
    intro pos frags pos' h
    simp [fragsFold] at h
    rw [h.1]
    exact List.Forall₂.nil
  | cons c cs ih =>
    intro pos frags pos' h
    rw [fragsFold] at h
    cases hgen : gen pos c with
    | none => simp [hgen] at h
    | some v =>
      cases v with
      | error e => simp [hgen] at h
      | ok r =>
        obtain ⟨fc, q'⟩ := r
        simp only [hgen] at h
        cases hr : fragsFold gen q' cs with
        | none => simp [hr] at h
        | some w =>
          cases w with
          | error e => simp [hr] at h
          | ok r' =>
            obtain ⟨fs, q''⟩ := r'
            simp only [hr, Option.some.injEq, Except.ok.injEq, Prod.mk.injEq] at h
            obtain ⟨h1, -⟩ := h
            subst h1
            exact List.Forall₂.cons ⟨pos, q', hgen⟩ (ih hr)

/-! ### Lemmas about `appendGuards` (the per-policy guaranteed characters) -/

/-- When every fragment is non-empty, the guard loop succeeds and returns
one character per fragment, each a member of its fragment. -/
theorem appendGuards_ok (s : Nat → Nat) :
    ∀ {frags : List (List Char)}, (∀ f ∈ frags, f ≠ []) → ∀ pos,
      ∃ guards pos', appendGuards s pos frags = some (guards, pos') ∧
        List.Forall₂ (fun g f => g ∈ f) guards frags := by
  intro frags
  induction frags with
  | nil => intro _ pos; exact ⟨[], pos, by simp [appendGuards], List.Forall₂.nil⟩
  | cons f fs ih =>
    intro hall pos
    have hf : f ≠ [] := hall f (by simp)
    have h1 : random_string s pos 1 f =
        some ([f.getD (s pos % f.length) 'a'], pos + 1) := by
      rw [random_string_eq s pos 1 hf]
      simp [rsCount, show List.range 1 = [0] from rfl]
    obtain ⟨guards, pos', hrec, hF⟩ :=
      ih (fun x hx => hall x (List.mem_cons_of_mem _ hx)) (pos + 1)
    refine ⟨f.getD (s pos % f.length) 'a' :: guards, pos', ?_,
      List.Forall₂.cons (getD_mem_of_lt (Nat.mod_lt _ (List.length_pos.mpr hf)) _) hF⟩
    rw [appendGuards]
    simp only [h1, hrec, List.singleton_append]

/-- A successful guard loop returns one member of each fragment, in order. -/
theorem appendGuards_inv (s : Nat → Nat) :
    ∀ {frags : List (List Char)} {pos guards pos'},
      appendGuards s pos frags = some (guards, pos') →
      List.Forall₂ (fun (g : Char) f => g ∈ f) guards frags := by
  intro frags
  induction frags with
  | nil =>
    intro pos guards pos' h
    simp [appendGuards] at h
    rw [h.1]
    exact List.Forall₂.nil
  | cons f fs ih =>
    intro pos guards pos' h
    rw [appendGuards] at h
    have hf : f ≠ [] := by
      intro hnil
      rw [hnil, random_string] at h
      simp at h
    rw [random_string_eq s pos 1 hf] at h
    have h1 : (List.range (rsCount 1 + 1)).map
        (fun i => f.getD (s (pos + i) % f.length) 'a') =
        [f.getD (s pos % f.length) 'a'] := by
      simp [rsCount, show List.range 1 = [0] from rfl]
    rw [h1] at h
    cases hr : appendGuards s (pos + rsCount 1 + 1) fs with
    | none => simp [hr] at h
    | some w =>
      obtain ⟨rest, q''⟩ := w
      simp only [hr, Option.some.injEq, Prod.mk.injEq, List.singleton_append] at h
      obtain ⟨h2, -⟩ := h
      subst h2
      exact List.Forall₂.cons
        (getD_mem_of_lt (Nat.mod_lt _ (List.length_pos.mpr hf)) _) (ih hr)

/-! ### Pointwise access to `Forall₂` -/

theorem forall₂_mem_left {α β : Type} {P : α → β → Prop} {l₁ : List α} {l₂ : List β}
    (h : List.Forall₂ P l₁ l₂) : ∀ a ∈ l₁, ∃ b ∈ l₂, P a b := by
  induction h with
  | nil => simp
  | cons hab _ ih =>
    intro a ha
    rcases List.mem_cons.mp ha with rfl | ha
    · exact ⟨_, List.mem_cons_self _ _, hab⟩
    · obtain ⟨b, hb, hP⟩ := ih a ha
      exact ⟨b, List.mem_cons_of_mem _ hb, hP⟩

theorem forall₂_mem_right {α β : Type} {P : α → β → Prop} {l₁ : List α} {l₂ : List β}
    (h : List.Forall₂ P l₁ l₂) : ∀ b ∈ l₂, ∃ a ∈ l₁, P a b := by
  induction h with
  | nil => simp
  | cons hab _ ih =>
    intro b hb
    rcases List.mem_cons.mp hb with rfl | hb
    · exact ⟨_, List.mem_cons_self _ _, hab⟩
    · obtain ⟨a, ha, hP⟩ := ih b hb
      exact ⟨a, List.mem_cons_of_mem _ ha, hP⟩

/-! ### Unfolding the interpreters at each kind of object -/

theorem lengthFuelH_composite {h : List HObj} {fuel i : Nat} {cs : List Nat}
    (hi : h.get? i = some (.composite cs)) :
    lengthFuelH h (fuel + 1) i = maxFold (lengthFuelH h fuel) 0 cs := by
  rw [lengthFuelH, hi]

theorem generateFuelH_composite (s : Nat → Nat) {h : List HObj} {fuel pos i : Nat}
    {cs : List Nat} (hi : h.get? i = some (.composite cs)) :
    generateFuelH s h (fuel + 1) pos i =
      match lengthFuelH h (fuel + 1) i with
      | none => none
      | some (.error e) => some (.error e)
      | some (.ok pasLen) =>
        match fragsFold (fun q c => generateFuelH s h fuel q c) pos cs with
        | none => none
        | some (.error e) => some (.error e)
        | some (.ok (frags, pos1)) =>
          if pasLen ≤ frags.length then some (.error .tooShortPassword)
          else
            match random_string s pos1 (pasLen - frags.length) frags.flatten with
            | none => some (.error .ub)
            | some (filler, pos2) =>
              match appendGuards s pos2 frags with
              | none => some (.error .ub)
              | some (guards, pos3) => some (.ok (filler ++ guards, pos3)) := by
  rw [generateFuelH, hi]

/-- A leaf (any concrete `basic_password_generator`) over a non-empty
alphabet always generates: it returns `rsCount len + 1` characters of its
alphabet (that is `len` characters when `len ≥ 1`). -/
theorem generateFuelH_leaf (s : Nat → Nat) {h : List HObj} {fuel pos i : Nat}
    {chars : List Char} {len : Nat}
    (hi : h.get? i = some (.leaf chars len)) (hne : chars ≠ []) :
    ∃ fc, generateFuelH s h (fuel + 1) pos i =
        some (.ok (fc, pos + rsCount len + 1)) ∧
      fc.length = rsCount len + 1 ∧ fc ≠ [] ∧ ∀ c ∈ fc, c ∈ chars := by
  obtain ⟨r, hr, hlen, hmem⟩ := random_string_ok s pos len hne
  refine ⟨r, ?_, hlen, ?_, hmem⟩
  · rw [generateFuelH, hi]
    simp only [hr]
  · intro h0
    rw [h0] at hlen
    simp at hlen

/-- All children of the composite are leaves over non-empty alphabets:
each child call generates a non-empty fragment inside its own alphabet. -/
theorem leafChildren_frag_prop (s : Nat → Nat) {h : List HObj} {fuel : Nat}
    {cs : List Nat}
    (hleaf : ∀ j ∈ cs, ∃ chars len, h.get? j = some (.leaf chars len) ∧ chars ≠ []) :
    ∀ c ∈ cs, ∀ q, ∃ fc q',
      generateFuelH s h (fuel + 1) q c = some (.ok (fc, q')) ∧
      (fc ≠ [] ∧ ∀ chars len, h.get? c = some (.leaf chars len) →
        ∀ x ∈ fc, x ∈ chars) := by
  intro c hc q
  obtain ⟨chars, len, hgc, hne⟩ := hleaf c hc
  obtain ⟨fc, hfc, -, hfcne, hmem⟩ := @generateFuelH_leaf s h fuel q c chars len hgc hne
  refine ⟨fc, _, hfc, hfcne, ?_⟩
  intro chars' len' hgc' x hx
  rw [hgc] at hgc'
  simp only [Option.some.injEq, HObj.leaf.injEq] at hgc'
  obtain ⟨rfl, rfl⟩ := hgc'
  exact hmem x hx

/-- Composite generation succeeds when the children are leaves over
non-empty alphabets and the target length exceeds the number of children;
the password has length `L` and contains a character of each child's
alphabet. -/
theorem generate_composite_ok (s : Nat → Nat) {h : List HObj} {fuel pos i : Nat}
    {cs : List Nat} {L : Nat}
    (hi : h.get? i = some (.composite cs))
    (hleaf : ∀ j ∈ cs, ∃ chars len, h.get? j = some (.leaf chars len) ∧ chars ≠ [])
    (hL : lengthFuelH h (fuel + 2) i = some (.ok L))
    (hk : cs.length < L) :
    ∃ p pos', generateFuelH s h (fuel + 2) pos i = some (.ok (p, pos')) ∧
      p.length = L ∧
      ∀ j ∈ cs, ∀ chars len, h.get? j = some (.leaf chars len) →
        ∃ c, c ∈ p ∧ c ∈ chars := by
  obtain ⟨frags, pos1, hfrags, hF⟩ :=
    fragsFold_ok (@leafChildren_frag_prop s h fuel cs hleaf) pos
  have hlen_eq : cs.length = frags.length := hF.length_eq
  have hfragsne : ∀ f ∈ frags, f ≠ [] := by
    intro f hf
    obtain ⟨c, -, hP⟩ := forall₂_mem_right hF f hf
    exact hP.1
  have hcsne : cs ≠ [] := by
    rintro rfl
    have e := @lengthFuelH_composite h (fuel + 1) i [] hi
    rw [show fuel + 1 + 1 = fuel + 2 from rfl] at e
    rw [e] at hL
    simp [maxFold] at hL
    simp at hk
    omega
  have hflat : frags.flatten ≠ [] := by
    cases frags with
    | nil =>
      exact absurd (List.length_eq_zero.mp hlen_eq) hcsne
    | cons f fs =>
      have hf : f ≠ [] := hfragsne f (by simp)
      obtain ⟨x, hx⟩ := List.exists_mem_of_ne_nil f hf
      intro hnil
      have hxmem : x ∈ (f :: fs).flatten := List.mem_flatten.mpr ⟨f, by simp, hx⟩
      rw [hnil] at hxmem
      simp at hxmem
  have hk' : frags.length < L := hlen_eq ▸ hk
  have hLk : 1 ≤ L - frags.length := by omega
  obtain ⟨filler, hfiller, hfillerlen, hfillermem⟩ :=
    random_string_ok_pos s pos1 hLk hflat
  obtain ⟨guards, pos3, hguards, hG⟩ :=
    appendGuards_ok s hfragsne (pos1 + (L - frags.length))
  refine ⟨filler ++ guards, pos3, ?_, ?_, ?_⟩
  · have e := @generateFuelH_composite s h (fuel + 1) pos i cs hi
    rw [show fuel + 1 + 1 = fuel + 2 from rfl] at e
    rw [e]
    simp only [hL, hfrags, hfiller, hguards]
    rw [if_neg (by omega)]
  · have hGlen : guards.length = frags.length := hG.length_eq
    rw [List.length_append, hfillerlen, hGlen]
    omega
  · intro j hj chars len hgj
    obtain ⟨f, hfmem, hP⟩ := forall₂_mem_left hF j hj
    obtain ⟨g, hg, hgf⟩ := forall₂_mem_right hG f hfmem
    exact ⟨g, List.mem_append_right _ hg, hP.2 chars len hgj g hgf⟩

/-- Composite generation over leaf children throws `tooShortPassword` when
the target length does not exceed the number of children. -/
theorem generate_composite_short (s : Nat → Nat) {h : List HObj} {fuel pos i : Nat}
    {cs : List Nat} {L : Nat}
    (hi : h.get? i = some (.composite cs))
    (hleaf : ∀ j ∈ cs, ∃ chars len, h.get? j = some (.leaf chars len) ∧ chars ≠ [])
    (hL : lengthFuelH h (fuel + 2) i = some (.ok L))
    (hk : L ≤ cs.length) :
    generateFuelH s h (fuel + 2) pos i = some (.error .tooShortPassword) := by
  obtain ⟨frags, pos1, hfrags, hF⟩ :=
    fragsFold_ok (@leafChildren_frag_prop s h fuel cs hleaf) pos
  have hlen_eq : cs.length = frags.length := hF.length_eq
  have e := @generateFuelH_composite s h (fuel + 1) pos i cs hi
  rw [show fuel + 1 + 1 = fuel + 2 from rfl] at e
  rw [e]
  simp only [hL, hfrags]
  rw [if_pos (by omega)]

/-- `composite_password_generator::length` over children whose own
`length()` calls return values `ls`: the result is the running maximum. -/
theorem length_composite_ok {h : List HObj} {fuel i : Nat} {cs ls : List Nat}
    (hi : h.get? i = some (.composite cs))
    (hls : List.Forall₂ (fun c l => lengthFuelH h (fuel + 1) c = some (.ok l)) cs ls) :
    lengthFuelH h (fuel + 2) i = some (.ok (ls.foldl max 0)) := by
  have e := @lengthFuelH_composite h (fuel + 1) i cs hi
  rw [show fuel + 1 + 1 = fuel + 2 from rfl] at e
  rw [e]
  exact maxFold_ok hls 0

/-! ### Termination: rank functions and the cyclic counterexample -/

/-- If the registration graph admits a rank decreasing from parent to child
(equivalently, it is acyclic), `length()` returns within fuel `rank i + 1`. -/
theorem lengthFuelH_rank_isSome {h : List HObj} {rank : Nat → Nat}
    (hrank : ∀ i cs, h.get? i = some (.composite cs) → ∀ j ∈ cs, rank j < rank i) :
    ∀ fuel i, rank i < fuel → (lengthFuelH h fuel i).isSome := by
  intro fuel
  induction fuel with
  | zero => intro i hi; omega
  | succ fuel ih =>
    intro i hi
    rw [lengthFuelH]
    cases hg : h.get? i with
    | none => simp
    | some o =>
      cases o with
      | basePG => simp
      | leaf chars l => simp
      | composite cs =>
        exact maxFold_isSome
          (fun c hc => ih c (by have := hrank i cs hg c hc; omega)) 0

/-- Under the same rank condition, `generate()` returns within fuel
`rank i + 1`: every acyclic configuration terminates (with a password or a
raised error). -/
theorem generateFuelH_rank_isSome (s : Nat → Nat) {h : List HObj} {rank : Nat → Nat}
    (hrank : ∀ i cs, h.get? i = some (.composite cs) → ∀ j ∈ cs, rank j < rank i) :
    ∀ fuel i, rank i < fuel → ∀ pos, (generateFuelH s h fuel pos i).isSome := by
  intro fuel
  induction fuel with
  | zero => intro i hi; omega
  | succ fuel ih =>
    intro i hi pos
    rw [generateFuelH]
    cases hg : h.get? i with
    | none => simp
    | some o =>
      cases o with
      | basePG => simp
      | leaf chars len => cases hr : random_string s pos len chars <;> simp [hr]
      | composite cs =>
        have hsome := lengthFuelH_rank_isSome hrank (fuel + 1) i hi
        cases hL : lengthFuelH h (fuel + 1) i with
        | none => rw [hL] at hsome; simp at hsome
        | some v =>
          cases v with
          | error e => simp [hL]
          | ok pasLen =>
            have hfsome : (fragsFold (fun q c => generateFuelH s h fuel q c) pos cs).isSome :=
              fragsFold_isSome
                (fun c hc q => ih c (by have := hrank i cs hg c hc; omega) q) pos
            cases hfr : fragsFold (fun q c => generateFuelH s h fuel q c) pos cs with
            | none => rw [hfr] at hfsome; simp at hfsome
            | some w =>
              cases w with
              | error e => simp [hL, hfr]
              | ok r =>
                obtain ⟨frags, pos1⟩ := r
                by_cases hcmp : pasLen ≤ frags.length
                · simp [hL, hfr, hcmp]
                · cases hrs : random_string s pos1 (pasLen - frags.length) frags.flatten with
                  | none => simp [hL, hfr, hcmp, hrs]
                  | some rs =>
                    obtain ⟨filler, pos2⟩ := rs
                    cases hag : appendGuards s pos2 frags with
                    | none => simp [hL, hfr, hcmp, hrs, hag]
                    | some ag =>
                      obtain ⟨guards, pos3⟩ := ag
                      simp [hL, hfr, hcmp, hrs, hag]

theorem cycHeap_length_none : ∀ fuel, lengthFuelH cycHeap fuel 0 = none := by
  intro fuel
  induction fuel with
  | zero => rfl
  | succ fuel ih =>
    rw [lengthFuelH]
    simp only [show cycHeap.get? 0 = some (.composite [0]) from rfl]
    rw [maxFold, ih]

theorem cycHeap_generate_none (s : Nat → Nat) (pos : Nat) :
    ∀ fuel, generateFuelH s cycHeap fuel pos 0 = none := by
  intro fuel
  cases fuel with
  | zero => rfl
  | succ fuel =>
    rw [generateFuelH]
    simp only [show cycHeap.get? 0 = some (.composite [0]) from rfl]
    rw [cycHeap_length_none]

/-! ### Claim C3 -/

/-- C3: for every `length ≥ 1` and non-empty alphabet,
`random_string(length, alphabet)` returns a string of exactly `length`
characters, each a member of the alphabet. -/
theorem C3_random_string (s : Nat → Nat) (pos : Nat) {len : Nat}
    {chars : List Char} (hlen : 1 ≤ len) (hne : chars ≠ []) :
    ∃ r pos', random_string s pos len chars = some (r, pos') ∧
      r.length = len ∧ ∀ c ∈ r, c ∈ chars := by
  obtain ⟨r, hr, h1, h2⟩ := random_string_ok_pos s pos hlen hne
  exact ⟨r, pos + len, hr, h1, h2⟩

/-- C3 witness: `random_string(3, "ab")` under the constant draw stream. -/
theorem C3_witness :
    (1 ≤ 3) ∧ ((['a', 'b'] : List Char) ≠ []) ∧
    ∃ r pos', random_string (fun _ => 1) 0 3 ['a', 'b'] = some (r, pos') ∧
      r.length = 3 ∧ ∀ c ∈ r, c ∈ (['a', 'b'] : List Char) :=
  ⟨by decide, by decide, C3_random_string (fun _ => 1) 0 (by decide) (by decide)⟩

/-! ### Claim C4 -/

/-- C4: `set_length(0)` is rejected (`invalidLengthValue`, stored value
unchanged) and `set_length(16)` stores 16 — but `set_length(-1)` is NOT
rejected: the argument converts to the `size_t` value `2^64 - 1`, the
unsigned guard `new_l <= 0` only catches 0, and the default length becomes
`2^64 - 1`, contradicting the claim (and the evident intent of the guard). -/
theorem C4_set_length_eval :
    set_length 10 0 = (10, some .invalidLengthValue) ∧
    set_length 10 16 = (16, none) ∧
    int_to_size_t (-1) = SIZE_T_MOD - 1 ∧
    set_length 10 (int_to_size_t (-1)) = (SIZE_T_MOD - 1, none) :=
  ⟨rfl, rfl, by decide, by decide⟩

/-! ### Claim C5 -/

/-- C5 counterexample: `random_string(0, "ab")` — length `< 1` — does not
fail: the function performs no validation and returns a (huge) string. -/
theorem C5_counterexample :
    (random_string (fun _ => 0) 0 0 ['a', 'b']).isSome = true := rfl

/-- C5 (amended): `random_string` performs no input validation.  With a
non-empty alphabet it always returns a string — `2^64` characters for
`length = 0` (the `size_t` loop-bound underflow), `length` characters
otherwise; with an empty alphabet its behaviour is undefined, no
`InvalidInput` error being raised in either case. -/
theorem C5_no_validation (s : Nat → Nat) (pos len : Nat) (chars : List Char) :
    (chars = [] → random_string s pos len chars = none) ∧
    (chars ≠ [] → ∃ r, random_string s pos len chars =
        some (r, pos + rsCount len + 1) ∧
      r.length = (if len = 0 then SIZE_T_MOD else len)) := by
  constructor
  · rintro rfl
    rw [random_string]
    simp
  · intro hne
    obtain ⟨r, hr, hlen, -⟩ := random_string_ok s pos len hne
    refine ⟨r, hr, ?_⟩
    rw [hlen]
    by_cases h0 : len = 0
    · subst h0
      rw [rsCount]
      norm_num [SIZE_T_MOD]
    · rw [rsCount, if_neg h0, if_neg h0]
      omega

/-- C5 witness: the empty alphabet gives no result; `random_string(2, "ab")`
returns a 2-character string without any error. -/
theorem C5_witness :
    (random_string (fun _ => 2) 0 7 [] = none) ∧
    ∃ r, random_string (fun _ => 2) 5 2 ['a', 'b'] =
        some (r, 5 + rsCount 2 + 1) ∧
      r.length = (if (2 : Nat) = 0 then SIZE_T_MOD else 2) :=
  ⟨(C5_no_validation (fun _ => 2) 0 7 []).1 rfl,
   (C5_no_validation (fun _ => 2) 5 2 ['a', 'b']).2 (by decide)⟩

/-! ### Claim C6 -/

/-- C6: a Symbol or LowerLetter policy built without an explicit length has
`length() = 12` whatever the process-wide default `d` is; a Digit or
UpperLetter policy built without an explicit length has `length() = d`,
the default in effect at construction time. -/
theorem C6_default_lengths (d : Nat) :
    lengthFuelH [mk_symbol_generator d] 1 0 = some (.ok 12) ∧
    lengthFuelH [mk_lower_letter_generator d] 1 0 = some (.ok 12) ∧
    lengthFuelH [mk_digit_generator d] 1 0 = some (.ok d) ∧
    lengthFuelH [mk_upper_letter_generator d] 1 0 = some (.ok d) :=
  ⟨rfl, rfl, rfl, rfl⟩

/-! ### Claim C10 -/

/-- C10: the stored default length starts at 10, so a Digit or UpperLetter
policy built without an explicit length in a fresh process has
`length() = 10`. -/
theorem C10_initial_default :
    password_default_length_initial = 10 ∧
    lengthFuelH [mk_digit_generator password_default_length_initial] 1 0 =
      some (.ok 10) ∧
    lengthFuelH [mk_upper_letter_generator password_default_length_initial] 1 0 =
      some (.ok 10) :=
  ⟨rfl, rfl, rfl⟩

/-! ### Claim C1 -/

/-- C1: for every composite whose registered children are leaf policies
over non-empty alphabets, with child `length()` values `ls` and
`totalLen = max ls > k`, `generate()` returns a password of length exactly
`totalLen` containing at least one character of each child's alphabet. -/
theorem C1_composite_generate (s : Nat → Nat) {h : List HObj} {fuel pos i : Nat}
    {cs ls : List Nat}
    (hi : h.get? i = some (.composite cs))
    (hleaf : ∀ j ∈ cs, ∃ chars len, h.get? j = some (.leaf chars len) ∧ chars ≠ [])
    (hls : List.Forall₂ (fun c l => lengthFuelH h (fuel + 1) c = some (.ok l)) cs ls)
    (hk : cs.length < ls.foldl max 0) :
    ∃ p pos', generateFuelH s h (fuel + 2) pos i = some (.ok (p, pos')) ∧
      p.length = ls.foldl max 0 ∧
      ∀ j ∈ cs, ∀ chars len, h.get? j = some (.leaf chars len) →
        ∃ c, c ∈ p ∧ c ∈ chars :=
  generate_composite_ok s hi hleaf (length_composite_ok hi hls) hk

/-- C1 witness: the reference scenario, four children of length 16
(`k = 4`, `totalLen = 16`): a 16-character password covering all four
alphabets. -/
theorem C1_witness :
    (witHeap1.get? 4 = some (.composite [0, 1, 2, 3])) ∧
    (([0, 1, 2, 3] : List Nat).length < ([16, 16, 16, 16] : List Nat).foldl max 0) ∧
    ∃ p pos', generateFuelH (fun _ => 0) witHeap1 2 0 4 = some (.ok (p, pos')) ∧
      p.length = ([16, 16, 16, 16] : List Nat).foldl max 0 ∧
      ∀ j ∈ ([0, 1, 2, 3] : List Nat), ∀ chars len,
        witHeap1.get? j = some (.leaf chars len) → ∃ c, c ∈ p ∧ c ∈ chars := by
  refine ⟨by decide, by decide,
    @C1_composite_generate (fun _ => 0) witHeap1 0 0 4 [0, 1, 2, 3] [16, 16, 16, 16]
      (by decide) ?_ ?_ (by decide)⟩
  · intro j hj
    fin_cases hj
    · exact ⟨digit_chars, 16, rfl, by decide⟩
    · exact ⟨symbol_chars, 16, rfl, by decide⟩
    · exact ⟨upper_letter_chars, 16, rfl, by decide⟩
    · exact ⟨lower_letter_chars, 16, rfl, by decide⟩
  · exact .cons (by decide) (.cons (by decide) (.cons (by decide)
      (.cons (by decide) .nil)))

/-! ### Claim C2 -/

/-- C2 counterexample: `generate()` does not raise `InsufficientLength`
*exactly* when `totalLen ≤ k`.  In `nestedHeap` the outer composite has
`totalLen = 5 > k = 2`, yet `generate()` raises `tooShortPassword`: the
nested empty composite child fails while its fragment is generated and the
error propagates. -/
theorem C2_counterexample :
    lengthFuelH nestedHeap 3 2 = some (.ok 5) ∧
    ¬(5 ≤ 2) ∧
    generateFuelH (fun _ => 0) nestedHeap 3 0 2 =
      some (.error .tooShortPassword) :=
  ⟨by decide, by decide, by decide⟩

/-- C2 (amended): over leaf children (whose own generation always
succeeds), `generate()` raises `InsufficientLength` exactly when
`totalLen ≤ k`, producing no password; this covers the zero-children
composite (`0 ≤ 0`) and the single child of length 1 (`1 ≤ 1`).  When a
nested child composite itself fails, the same error propagates even though
the outer `totalLen > k`. -/
theorem C2_insufficient_iff (s : Nat → Nat) {h : List HObj} {fuel pos i : Nat}
    {cs : List Nat} {L : Nat}
    (hi : h.get? i = some (.composite cs))
    (hleaf : ∀ j ∈ cs, ∃ chars len, h.get? j = some (.leaf chars len) ∧ chars ≠ [])
    (hL : lengthFuelH h (fuel + 2) i = some (.ok L)) :
    generateFuelH s h (fuel + 2) pos i = some (.error .tooShortPassword) ↔
      L ≤ cs.length := by
  constructor
  · intro hgen
    by_contra hnle
    obtain ⟨p, pos', hok, -, -⟩ := generate_composite_ok s hi hleaf hL (by omega)
    rw [hok] at hgen
    simp at hgen
  · intro hle
    exact generate_composite_short s hi hleaf hL hle

/-- C2 witness: the single digit child of length 1 (`k = 1`,
`totalLen = 1`) fails with `InsufficientLength`; so does the zero-children
composite (`totalLen = 0 ≤ 0 = k`). -/
theorem C2_witness :
    (lengthFuelH singleHeap 2 1 = some (.ok 1)) ∧
    generateFuelH (fun _ => 0) singleHeap 2 0 1 =
      some (.error .tooShortPassword) ∧
    generateFuelH (fun _ => 0) [HObj.composite []] 2 0 0 =
      some (.error .tooShortPassword) := by
  refine ⟨by decide, ?_, ?_⟩
  · refine (@C2_insufficient_iff (fun _ => 0) singleHeap 0 0 1 [0] 1
      (by decide) ?_ (by decide)).mpr (by decide)
    intro j hj
    fin_cases hj
    exact ⟨digit_chars, 1, rfl, by decide⟩
  · refine (@C2_insufficient_iff (fun _ => 0) [HObj.composite []] 0 0 0 [] 0
      (by decide) ?_ (by decide)).mpr (by decide)
    intro j hj
    simp at hj

/-! ### Claim C7 -/

/-- C7: every successfully generated composite password is structured as a
filler prefix of length `totalLen - k` whose characters come from the
concatenation of the child fragments, followed by a trailing block of
exactly `k` characters in registration order, the `t`-th drawn from the
`t`-th child's fragment. -/
theorem C7_structure (s : Nat → Nat) {h : List HObj} {fuel pos i : Nat}
    {cs : List Nat} {p : List Char} {pos' : Nat}
    (hi : h.get? i = some (.composite cs))
    (hgen : generateFuelH s h (fuel + 1) pos i = some (.ok (p, pos'))) :
    ∃ L frags pos1 filler guards,
      lengthFuelH h (fuel + 1) i = some (.ok L) ∧
      fragsFold (fun q c => generateFuelH s h fuel q c) pos cs =
        some (.ok (frags, pos1)) ∧
      cs.length < L ∧
      frags.length = cs.length ∧
      p = filler ++ guards ∧
      filler.length = L - cs.length ∧
      (∀ c ∈ filler, c ∈ frags.flatten) ∧
      guards.length = cs.length ∧
      List.Forall₂ (fun g f => g ∈ f) guards frags := by
  rw [generateFuelH_composite s hi] at hgen
  cases hL : lengthFuelH h (fuel + 1) i with
  | none => simp [hL] at hgen
  | some v =>
    cases v with
    | error e => simp [hL] at hgen
    | ok pasLen =>
      simp only [hL] at hgen
      cases hfr : fragsFold (fun q c => generateFuelH s h fuel q c) pos cs with
      | none => simp [hfr] at hgen
      | some w =>
        cases w with
        | error e => simp [hfr] at hgen
        | ok r =>
          obtain ⟨frags, pos1⟩ := r
          simp only [hfr] at hgen
          by_cases hcmp : pasLen ≤ frags.length
          · rw [if_pos hcmp] at hgen
            simp at hgen
          · rw [if_neg hcmp] at hgen
            cases hrs : random_string s pos1 (pasLen - frags.length) frags.flatten with
            | none => simp [hrs] at hgen
            | some rs =>
              obtain ⟨filler, pos2⟩ := rs
              simp only [hrs] at hgen
              cases hag : appendGuards s pos2 frags with
              | none => simp [hag] at hgen
              | some ag =>
                obtain ⟨guards, pos3⟩ := ag
                simp only [hag, Option.some.injEq, Except.ok.injEq,
                  Prod.mk.injEq] at hgen
                obtain ⟨hp, -⟩ := hgen
                have hlen_cs : cs.length = frags.length := (fragsFold_inv hfr).length_eq
                have hflatne : frags.flatten ≠ [] := by
                  intro h0
                  rw [h0, random_string] at hrs
                  simp at hrs
                obtain ⟨r', hr', hrlen, hrmem⟩ :=
                  random_string_ok_pos s pos1
                    (show 1 ≤ pasLen - frags.length by omega) hflatne
                rw [hrs] at hr'
                simp only [Option.some.injEq, Prod.mk.injEq] at hr'
                obtain ⟨rfl, -⟩ := hr'
                have hG := appendGuards_inv s hag
                refine ⟨pasLen, frags, pos1, filler, guards, rfl, rfl, by omega,
                  hlen_cs.symm, hp.symm, ?_, hrmem, ?_, hG⟩
                · rw [hrlen, hlen_cs]
                · rw [hG.length_eq, hlen_cs]

/-- C7 witness: the one-child composite of length 3: password `"000"` =
filler `"00"` ++ guard `"0"`. -/
theorem C7_witness :
    (smallHeap.get? 1 = some (.composite [0])) ∧
    generateFuelH (fun _ => 0) smallHeap 2 0 1 =
      some (.ok (['0', '0', '0'], 6)) ∧
    ∃ L frags pos1 filler guards,
      lengthFuelH smallHeap 2 1 = some (.ok L) ∧
      fragsFold (fun q c => generateFuelH (fun _ => 0) smallHeap 1 q c) 0 [0] =
        some (.ok (frags, pos1)) ∧
      ([0] : List Nat).length < L ∧
      frags.length = ([0] : List Nat).length ∧
      (['0', '0', '0'] : List Char) = filler ++ guards ∧
      filler.length = L - ([0] : List Nat).length ∧
      (∀ c ∈ filler, c ∈ frags.flatten) ∧
      guards.length = ([0] : List Nat).length ∧
      List.Forall₂ (fun g f => g ∈ f) guards frags :=
  ⟨by decide, by decide,
    @C7_structure (fun _ => 0) smallHeap 1 0 1 [0] ['0', '0', '0'] 6
      (by decide) (by decide)⟩

/-! ### Claim C8 -/

/-- C8 counterexample: composite `length()` can fail.  With a bare
`password_generator` base instance registered as the child, the child's
`length()` throws and the composite's `length()` propagates the error,
so "`length()` never fails" is false. -/
theorem C8_counterexample :
    lengthFuelH baseChildHeap 2 1 = some (.error .cantReturnLength) := by
  decide

/-- C8 (amended): whenever every registered child's own `length()` returns
a value, the composite's `length()` returns the running maximum of those
values (`0` for zero children, as `length()` is a fold starting at 0); it
fails (only) when some child's `length()` itself throws, e.g. a bare
`password_generator` base instance. -/
theorem C8_length_max {h : List HObj} {fuel i : Nat} {cs ls : List Nat}
    (hi : h.get? i = some (.composite cs))
    (hls : List.Forall₂ (fun c l => lengthFuelH h (fuel + 1) c = some (.ok l)) cs ls) :
    lengthFuelH h (fuel + 2) i = some (.ok (ls.foldl max 0)) :=
  length_composite_ok hi hls

/-- C8 witness: children of lengths 3 and 5 give `length() = 5`; the
zero-children composite gives `length() = 0`. -/
theorem C8_witness :
    lengthFuelH twoLeafHeap 2 2 = some (.ok (([3, 5] : List Nat).foldl max 0)) ∧
    lengthFuelH [HObj.composite []] 2 0 =
      some (.ok (([] : List Nat).foldl max 0)) :=
  ⟨@C8_length_max twoLeafHeap 0 2 [0, 1] [3, 5] (by decide)
      (.cons (by decide) (.cons (by decide) .nil)),
   @C8_length_max [HObj.composite []] 0 0 [] [] (by decide) .nil⟩

/-! ### Claim C9 -/

/-- C9 counterexample: generation does not terminate for every reachable
configuration.  Registering a composite as its own child (`c->add(c)`,
allowed by the public `add`) makes `generate()` — through the `length()`
recursion — never return, whatever the fuel and random draws. -/
theorem C9_counterexample : ¬ GenTerminatesH cycHeap 0 := by
  intro hterm
  obtain ⟨fuel, r, hr⟩ := hterm (fun _ => 0) 0
  rw [cycHeap_generate_none] at hr
  cases hr

/-- C9 (amended): generation terminates — returning a string or raising one
of the modelled errors — for every configuration whose registration graph
is acyclic, i.e. admits a rank decreasing from each composite to its
children; fuel `rank i + 1` suffices for object `i`.  (Each underlying
`random_string` call is a total function of the model, hence terminating.)
Cyclic configurations, reachable through `add`, diverge instead. -/
theorem C9_acyclic_terminates (s : Nat → Nat) {h : List HObj} {rank : Nat → Nat}
    (hrank : ∀ i cs, h.get? i = some (.composite cs) → ∀ j ∈ cs, rank j < rank i)
    (i pos : Nat) :
    ∃ r, generateFuelH s h (rank i + 1) pos i = some r :=
  Option.isSome_iff_exists.mp
    (generateFuelH_rank_isSome s hrank (rank i + 1) i (by omega) pos)

/-- C9 witness: the acyclic two-object configuration (a digit leaf inside a
composite) terminates with fuel 2 under the identity rank. -/
theorem C9_witness :
    ∃ r, generateFuelH (fun _ => 0) [HObj.leaf digit_chars 2, HObj.composite [0]]
      2 0 1 = some r := by
  refine @C9_acyclic_terminates (fun _ => 0)
    [HObj.leaf digit_chars 2, HObj.composite [0]] (fun n => n) ?_ 1 0
  intro i cs hc j hj
  rcases i with _ | _ | n
  · simp at hc
  · simp at hc
    subst hc
    simp at hj
    subst hj
    decide
  · simp at hc

end PasswordGen
